import Mathlib

/-!
Shallow embedding of the preference-injector core (TypeScript) in Lean 4.

Embedded components:
* the data model (`types.ts`): `PreferenceValue`, `PreferenceMetadata`,
  the `ConflictResolution` string enum, option records;
* `ConflictResolver` (`utils/conflict-resolver.ts`): `resolve`,
  `resolveByHighestPriority`, `resolveByLowestPriority`, `resolveByMerge`,
  `resolveByOverride`, `deepMerge`;
* `LRUCache` (`utils/cache.ts`): `get`, `set`, `delete`, `evictOldest`,
  with `Date.now()` passed explicitly as a parameter;
* `PreferenceInjector` (`core/injector.ts`): the constructor's validator
  choice, `initialize`, `get`, `set` and `delete`, with the asynchronous
  collaborators (providers, validator) represented by their outcomes.

JavaScript objects are modelled as insertion-ordered association lists
(`mapGet` / `mapSet` / `mapDelete` mirror property read, property write and
`Map.delete`); `Date` values are modelled by their millisecond value as `Int`.
-/

namespace PrefInj

/-! ## Data model (types.ts) -/

/-- `PreferenceValue`: string | number | boolean | null | object | array.
Objects are insertion-ordered key/value lists (JavaScript object semantics). -/
inductive PreferenceValue where
  | vStr (s : String)
  | vNum (n : Int)
  | vBool (b : Bool)
  | vNull
  | vObj (entries : List (String × PreferenceValue))
  | vArr (elems : List PreferenceValue)

/-- `PreferenceMetadata` from types.ts. `timestamp` is the `Date` in
milliseconds; `priority` is the numeric value of `PreferencePriority`. -/
structure PreferenceMetadata where
  key : String
  value : PreferenceValue
  priority : Int
  source : String
  timestamp : Int
  encrypted : Option Bool := none
  validated : Option Bool := none
  ttl : Option Int := none

/-- The `ConflictResolution` string enum values from types.ts.  The strategy
is carried as its runtime string so that unrecognized values can be passed,
exactly as TypeScript permits at the `resolve` boundary. -/
def ConflictResolution.HIGHEST_PRIORITY : String := "highest_priority"

def ConflictResolution.LOWEST_PRIORITY : String := "lowest_priority"

def ConflictResolution.MERGE : String := "merge"

def ConflictResolution.OVERRIDE : String := "override"

def ConflictResolution.ERROR : String := "error"

/-- `ValidationError` record from types.ts (rule, message, value). -/
structure ValidationErrorRec where
  rule : String
  message : String
  value : PreferenceValue

/-- `ValidationResult` from types.ts. -/
structure ValidationResult where
  valid : Bool
  errors : List ValidationErrorRec

/-- The error kinds thrown by the embedded code paths (errors.ts plus the
plain `Error` throws in injector.ts / conflict-resolver.ts). -/
inductive PreferenceError where
  | conflictError (key : String) (sources : List String)
  | notFoundError (key : String)
  | validationFailed (errors : List ValidationErrorRec)
  | genericError (msg : String)
  | providerError (msg : String)

/-- `AuditAction` enum from types.ts. -/
inductive AuditAction where
  | get
  | set
  | delete
  | clear
  | validate
  | encrypt
  | decrypt
deriving DecidableEq, Repr

/-- `PreferenceEvent` enum from types.ts. -/
inductive PreferenceEvent where
  | changed
  | added
  | removed
  | cleared
deriving DecidableEq, Repr

/-- `GetOptions` from types.ts. -/
structure GetOptions where
  defaultValue : Option PreferenceValue := none
  decrypt : Option Bool := none
  useCache : Option Bool := none

/-- `SetOptions` from types.ts (the fields the injector reads). -/
structure SetOptions where
  encrypt : Option Bool := none
  validate : Option Bool := none

/-! ## Association-list operations modelling JavaScript objects and `Map` -/

/-- Property read `m[k]`: first entry with the key, if any. -/
def mapGet {β : Type} : List (String × β) → String → Option β
  | [], _ => none
  | (k', v) :: rest, k => if k' = k then some v else mapGet rest k

/-- Property write `m[k] = v`: overwrite in place if the key exists
(keeping its position), else append — JavaScript object/Map semantics. -/
def mapSet {β : Type} : List (String × β) → String → β → List (String × β)
  | [], k, v => [(k, v)]
  | (k', v') :: rest, k, v =>
    if k' = k then (k, v) :: rest else (k', v') :: mapSet rest k v

/-- `Map.delete k`: remove the entry with the key, if present. -/
def mapDelete {β : Type} : List (String × β) → String → List (String × β)
  | [], _ => []
  | (k', v') :: rest, k => if k' = k then rest else (k', v') :: mapDelete rest k

/-- The keys of an association list, in order. -/
def mapKeys {β : Type} (m : List (String × β)) : List String := m.map Prod.fst

/-! ## ConflictResolver (utils/conflict-resolver.ts) -/

/-- The guard `typeof v === 'object' && v !== null && !Array.isArray(v)`:
true exactly for plain objects. -/
def isPlainObject : PreferenceValue → Bool
  | .vObj _ => true
  | _ => false

/-- The entry list of an object value (`Object.entries`); `[]` otherwise. -/
def entriesOf : PreferenceValue → List (String × PreferenceValue)
  | .vObj es => es
  | _ => []

mutual

/-- Binary deep merge: the effect of `ConflictResolver.deepMerge([a, b])`
(see `deepMerge_pair`).  On two plain objects it folds the second object's
entries into the first; otherwise the second argument wins. -/
def mergeVal : PreferenceValue → PreferenceValue → PreferenceValue
  | .vObj ra, .vObj rb => .vObj (mergeEntries ra rb)
  | _, b => b
termination_by a b => sizeOf b

/-- The inner loop of `ConflictResolver.deepMerge`: fold the entries of one
source object into the accumulated `result` object.  For each `(key, val)`:
if both `val` and `result[key]` are plain objects, recursively deep-merge
them; otherwise `result[key] = val`. -/
def mergeEntries : List (String × PreferenceValue) → List (String × PreferenceValue) → List (String × PreferenceValue)
  | result, [] => result
  | result, (k, val) :: rest =>
    mergeEntries
      (match mapGet result k with
       | some w =>
         if isPlainObject val && isPlainObject w then
           mapSet result k (mergeVal w val)
         else
           mapSet result k val
       | none => mapSet result k val)
      rest
termination_by result es => sizeOf es

end

/-- `ConflictResolver.deepMerge(values)`: if any value is not a plain object,
return the last value (`values[values.length - 1]`); otherwise fold every
object's entries into an initially empty result object. -/
def deepMerge (values : List PreferenceValue) : PreferenceValue :=
  let allObjects := values.all isPlainObject
  if !allObjects then
    values.getLastD .vNull
  else
    .vObj (values.foldl
      (fun result value =>
        match value with
        | .vObj es => mergeEntries result es
        | _ => result)
      [])

/-- The fold step of `resolveByHighestPriority`'s `reduce`. -/
def highestStep (highest current : PreferenceMetadata) : PreferenceMetadata :=
  if current.priority > highest.priority then current
  else if current.priority = highest.priority ∧ current.timestamp > highest.timestamp then current
  else highest

/-- The fold step of `resolveByLowestPriority`'s `reduce`. -/
def lowestStep (lowest current : PreferenceMetadata) : PreferenceMetadata :=
  if current.priority < lowest.priority then current
  else if current.priority = lowest.priority ∧ current.timestamp < lowest.timestamp then current
  else lowest

/-- `ConflictResolver.resolveByHighestPriority`: `conflicts.reduce(...)`,
i.e. a left fold of `highestStep` over the first element and the rest. -/
def resolveByHighestPriority (first : PreferenceMetadata) (rest : List PreferenceMetadata) : PreferenceMetadata :=
  rest.foldl highestStep first

/-- `ConflictResolver.resolveByLowestPriority`: `conflicts.reduce(...)`. -/
def resolveByLowestPriority (first : PreferenceMetadata) (rest : List PreferenceMetadata) : PreferenceMetadata :=
  rest.foldl lowestStep first

/-- `ConflictResolver.resolveByOverride`: `reduce` keeping the record with
the strictly greater timestamp (last one wins on ties kept-first). -/
def resolveByOverride (first : PreferenceMetadata) (rest : List PreferenceMetadata) : PreferenceMetadata :=
  rest.foldl (fun latest current =>
    if current.timestamp > latest.timestamp then current else latest) first

/-- The sort comparator of `resolveByMerge` as a `Bool`-valued `le`:
ascending by priority, then ascending by timestamp.  A stable merge sort
with this relation models `Array.prototype.sort` (stable per the
ECMAScript specification) with the numeric comparator of the source. -/
def mergeLe (a b : PreferenceMetadata) : Bool :=
  if a.priority ≠ b.priority then a.priority < b.priority else a.timestamp ≤ b.timestamp

/-- `ConflictResolver.resolveByMerge`: sort ascending by (priority,
timestamp), deep-merge the sorted values, and return a copy of the
highest-ranked (last sorted) record with the merged value and the composite
`merged[...]` source label joining the sorted records' sources. -/
def resolveByMerge (first : PreferenceMetadata) (rest : List PreferenceMetadata) : PreferenceMetadata :=
  let sorted := (first :: rest).mergeSort mergeLe
  let mergedValue := deepMerge (sorted.map (·.value))
  let highestPriority := sorted.getLastD first
  { highestPriority with
    value := mergedValue
    source := "merged[" ++ String.intercalate "," (sorted.map (·.source)) ++ "]" }

/-- `ConflictResolver.resolve(conflicts, strategy)`.  Empty input throws a
`ConflictError('unknown', [])`; a single record short-circuits before the
strategy dispatch; the `ERROR` strategy throws a `ConflictError`; an
unrecognized strategy throws a plain `Error`. -/
def resolve (conflicts : List PreferenceMetadata) (strategy : String) : Except PreferenceError PreferenceMetadata :=
  match conflicts with
  | [] => .error (.conflictError "unknown" [])
  | [c] => .ok c
  | c :: cs =>
    if strategy = ConflictResolution.HIGHEST_PRIORITY then
      .ok (resolveByHighestPriority c cs)
    else if strategy = ConflictResolution.LOWEST_PRIORITY then
      .ok (resolveByLowestPriority c cs)
    else if strategy = ConflictResolution.MERGE then
      .ok (resolveByMerge c cs)
    else if strategy = ConflictResolution.OVERRIDE then
      .ok (resolveByOverride c cs)
    else if strategy = ConflictResolution.ERROR then
      .error (.conflictError c.key ((c :: cs).map (·.source)))
    else
      .error (.genericError ("Unknown conflict resolution strategy: " ++ strategy))

/-! ## LRUCache (utils/cache.ts) -/

/-- `CacheEntry` from utils/cache.ts: stored metadata plus absolute expiry. -/
structure CacheEntry where
  value : PreferenceMetadata
  expiresAt : Int

/-- The `LRUCache` state: the `Map` (insertion-ordered association list) and
the recency-ordered key sequence (`accessOrder`, least recent first). -/
structure LRUCache where
  maxSize : Nat
  defaultTTL : Int
  cache : List (String × CacheEntry)
  accessOrder : List String

/-- `removeFromAccessOrder`: `indexOf` + `splice(index, 1)` removes the first
occurrence of the key. -/
def LRUCache.removeFromAccessOrder (st : LRUCache) (key : String) : LRUCache :=
  { st with accessOrder := st.accessOrder.erase key }

/-- `LRUCache.delete(key)`: remove from access order, then `Map.delete`,
returning whether the key was present. -/
def LRUCache.delete (st : LRUCache) (key : String) : Bool × LRUCache :=
  let st' := st.removeFromAccessOrder key
  ((mapGet st'.cache key).isSome, { st' with cache := mapDelete st'.cache key })

/-- `LRUCache.evictOldest`: delete the front of the recency order (the
least-recently-used key), if any. -/
def LRUCache.evictOldest (st : LRUCache) : LRUCache :=
  match st.accessOrder with
  | [] => st
  | oldest :: _ => (st.delete oldest).2

/-- `LRUCache.get(key)` with `Date.now()` passed as `now`: a miss returns
`none`; an expired entry is deleted and treated as a miss; a hit moves the
key to the most-recently-used end of the access order. -/
def LRUCache.get (st : LRUCache) (now : Int) (key : String) : Option PreferenceMetadata × LRUCache :=
  match mapGet st.cache key with
  | none => (none, st)
  | some entry =>
    if now > entry.expiresAt then
      (none, (st.delete key).2)
    else
      (some entry.value,
       { st with accessOrder := st.accessOrder.erase key ++ [key] })

/-- `LRUCache.set(key, value, ttl?)` with `Date.now()` passed as `now`:
expiry is `now + (ttl || defaultTTL)` (`0` is falsy); an existing key is
first removed from the access order; the entry is written and the key
appended as most recent; if the map then exceeds `maxSize`, the single
least-recently-used entry is evicted. -/
def LRUCache.set (st : LRUCache) (now : Int) (key : String) (value : PreferenceMetadata) (ttl : Option Int) : LRUCache :=
  let expiresAt := now + (match ttl with
    | some t => if t ≠ 0 then t else st.defaultTTL
    | none => st.defaultTTL)
  let st₁ := if (mapGet st.cache key).isSome then st.removeFromAccessOrder key else st
  let st₂ := { st₁ with
    cache := mapSet st₁.cache key ⟨value, expiresAt⟩
    accessOrder := st₁.accessOrder ++ [key] }
  if st₂.cache.length > st₂.maxSize then st₂.evictOldest else st₂

/-- Well-formedness maintained by the cache at runtime: map keys are unique
(a `Map` property), the access order holds each key once, and the access
order holds exactly the map's keys. -/
def LRUCache.wf (st : LRUCache) : Prop :=
  (mapKeys st.cache).Nodup ∧ st.accessOrder.Nodup ∧
    ∀ k, (mapGet st.cache k).isSome ↔ k ∈ st.accessOrder

/-! ## PreferenceInjector (core/injector.ts)

The injector's asynchronous collaborators are represented by their outcomes:
a provider fan-out becomes the list of per-provider results, the validator
becomes the `ValidationResult` it would return, and the audit log and event
emission become observable components of the returned trace. -/

/-- The `Validator` implementations available in the repository.  The
constructor's ternary installs `PreferenceValidator` in both branches. -/
inductive ValidatorImpl where
  | preferenceValidator
deriving DecidableEq, Repr

/-- The validator chosen by the constructor:
`config?.enableValidation ? new PreferenceValidator() : new PreferenceValidator()`.
`none` models an absent config or field (falsy). -/
def PreferenceInjector.chooseValidator (enableValidation : Option Bool) : ValidatorImpl :=
  if enableValidation.getD false then .preferenceValidator else .preferenceValidator

/-- The first rejection among provider results (`Promise.all` rejects with
the first failure; `none` means all succeeded). -/
def firstFailure {α : Type} (results : List (Except PreferenceError α)) : Option PreferenceError :=
  results.findSome? fun r =>
    match r with
    | .error e => some e
    | .ok _ => none

/-- `PreferenceInjector.initialize()` as a function of the current
`initialized` flag and each provider's initialization outcome: a no-op when
already initialized; otherwise the first provider failure propagates and the
flag is left unchanged; the flag is set only after all succeed. -/
def PreferenceInjector.initialize (initialized : Bool) (providerResults : List (Except PreferenceError Unit)) : Except PreferenceError Unit × Bool :=
  if initialized then (.ok (), initialized)
  else
    match firstFailure providerResults with
    | some e => (.error e, initialized)
    | none => (.ok (), true)

/-- The environment of one `PreferenceInjector.get` call: the cache lookup
result, each provider's result for the key, the configured strategy, and the
encryption service's behaviour. -/
structure GetEnv where
  cached : Option PreferenceMetadata
  providerResults : List (Option PreferenceMetadata)
  strategy : String
  isEncrypted : String → Bool
  decryptFn : String → String

/-- The observable outcome of a successful `get`: the returned value, the
audit actions logged by this call in order, and the cache write (metadata
and ttl passed to `cache.set`), if any. -/
structure GetOutcome where
  value : PreferenceValue
  auditLog : List AuditAction
  cacheWrite : Option (PreferenceMetadata × Option Int)

/-- `PreferenceInjector.get(key, options?)`: cache hit returns immediately
(logged as a GET from `cache`); otherwise non-null provider results are
collected; zero results return `options.defaultValue` when provided (with no
logging) and throw `PreferenceNotFoundError` otherwise; the collected
results are resolved, optionally decrypted (logging DECRYPT), cached unless
`useCache` is `false`, and logged as a GET. -/
def PreferenceInjector.get (env : GetEnv) (key : String) (options : GetOptions) : Except PreferenceError GetOutcome :=
  match (if options.useCache ≠ some false then env.cached else none) with
  | some cached => .ok ⟨cached.value, [.get], none⟩
  | none =>
    let results := env.providerResults.filterMap id
    if results.length = 0 then
      match options.defaultValue with
      | some d => .ok ⟨d, [], none⟩
      | none => .error (.notFoundError key)
    else
      match resolve results env.strategy with
      | .error e => .error e
      | .ok resolved =>
        let decrypted : Bool :=
          decide (options.decrypt = some true) &&
            match resolved.value with
            | .vStr s => env.isEncrypted s
            | _ => false
        let value :=
          match resolved.value with
          | .vStr s =>
            if options.decrypt = some true ∧ env.isEncrypted s then
              .vStr (env.decryptFn s)
            else resolved.value
          | _ => resolved.value
        let cacheWrite :=
          if options.useCache ≠ some false then
            some ({ resolved with value := value }, resolved.ttl)
          else none
        .ok ⟨value,
             (if decrypted then [AuditAction.decrypt] else []) ++ [.get],
             cacheWrite⟩

/-- The old-value capture shared by `set` and `delete`:
`await this.get(key, { useCache: false }).catch(() => undefined)`.
The `catch` swallows every error kind, not only Not-Found. -/
def captureOldValue (r : Except PreferenceError PreferenceValue) : Option PreferenceValue :=
  match r with
  | .ok v => some v
  | .error _ => none

/-- A `PreferenceChangeEvent` as emitted by the injector. -/
structure PreferenceChangeEventModel where
  type : PreferenceEvent
  key : String
  newValue : Option PreferenceValue
  oldValue : Option PreferenceValue

/-- The environment of one `PreferenceInjector.set` call: the outcome of the
old-value pre-read, the validator's result for (key, value), the encryption
function, and each provider's write outcome. -/
structure SetEnv where
  oldValueResult : Except PreferenceError PreferenceValue
  validationResult : ValidationResult
  encryptFn : String → String
  providerWriteResults : List (Except PreferenceError Unit)

/-- The observable trace of one `set` call. -/
structure SetTrace where
  result : Except PreferenceError PreferenceValue
  validationRan : Bool
  auditLog : List AuditAction
  eventEmitted : Option PreferenceChangeEventModel
  cacheDeleted : Bool

/-- `PreferenceInjector.set(key, value, options?)`: capture the old value
(all pre-read errors swallowed); unless `options.validate === false` run the
validator — an invalid result throws `Validation failed: ...` carrying the
error list (before any VALIDATE log), a valid result is followed by a
VALIDATE log; if `options.encrypt` and the value is a string, encrypt and
log ENCRYPT; fan the write out to every provider (first failure propagates);
delete the cache entry; log SET; emit ADDED when no old value was found,
else CHANGED. -/
def PreferenceInjector.set (env : SetEnv) (key : String) (value : PreferenceValue) (options : Option SetOptions) : SetTrace :=
  let oldValue := captureOldValue env.oldValueResult
  let validationRuns := (match options with | some o => o.validate | none => none) ≠ some false
  if validationRuns ∧ ¬env.validationResult.valid then
    { result := .error (.validationFailed env.validationResult.errors)
      validationRan := true
      auditLog := []
      eventEmitted := none
      cacheDeleted := false }
  else
    let auditV : List AuditAction := if validationRuns then [.validate] else []
    let encryptRequested := (match options with | some o => o.encrypt | none => none) = some true
    let (finalValue, auditE) :=
      match value with
      | .vStr s =>
        if encryptRequested then
          (PreferenceValue.vStr (env.encryptFn s), [AuditAction.encrypt])
        else
          (PreferenceValue.vStr s, ([] : List AuditAction))
      | v => (v, ([] : List AuditAction))
    match firstFailure env.providerWriteResults with
    | some e =>
      { result := .error e
        validationRan := validationRuns
        auditLog := auditV ++ auditE
        eventEmitted := none
        cacheDeleted := false }
    | none =>
      { result := .ok finalValue
        validationRan := validationRuns
        auditLog := auditV ++ auditE ++ [AuditAction.set]
        eventEmitted := some
          { type := if oldValue.isNone then .added else .changed
            key := key
            newValue := some value
            oldValue := oldValue }
        cacheDeleted := true }

/-- The environment of one `PreferenceInjector.delete` call. -/
structure DeleteEnv where
  oldValueResult : Except PreferenceError PreferenceValue
  providerDeleteResults : List (Except PreferenceError Bool)

/-- The observable trace of one `delete` call. -/
structure DeleteTrace where
  result : Except PreferenceError Bool
  auditLog : List AuditAction
  eventEmitted : Option PreferenceChangeEventModel
  cacheDeleted : Bool

/-- `PreferenceInjector.delete(key)`: capture the old value (all pre-read
errors swallowed); delete from every provider accumulating whether any
deleted (first failure propagates); if anything was deleted, invalidate the
cache, log DELETE and emit a REMOVED event carrying the old value. -/
def PreferenceInjector.delete (env : DeleteEnv) (key : String) : DeleteTrace :=
  let oldValue := captureOldValue env.oldValueResult
  match firstFailure env.providerDeleteResults with
  | some e =>
    { result := .error e, auditLog := [], eventEmitted := none, cacheDeleted := false }
  | none =>
    let deleted := env.providerDeleteResults.any fun r =>
      match r with
      | .ok b => b
      | .error _ => false
    if deleted then
      { result := .ok true
        auditLog := [AuditAction.delete]
        eventEmitted := some { type := .removed, key := key, newValue := none, oldValue := oldValue }
        cacheDeleted := true }
    else
      { result := .ok false, auditLog := [], eventEmitted := none, cacheDeleted := false }

/-! ## Theorems -/

/-- `firstFailure` is `none` exactly when every provider outcome is a
success. -/
theorem firstFailure_eq_none_iff (rs : List (Except PreferenceError Unit)) :
    firstFailure rs = none ↔ ∀ r ∈ rs, r = .ok () := by
  unfold firstFailure
  rw [List.findSome?_eq_none_iff]
  constructor
  · intro h r hr
    cases r with
    | ok u => cases u; rfl
    | error e => exact absurd (h _ hr) (by simp)
  · intro h r hr
    rw [h r hr]

/-- C6: resolving a one-element collection under any strategy — including
`ERROR` and unrecognized strategy strings — returns that element unchanged
and never raises: the length-1 short-circuit precedes all strategy
dispatch. -/
theorem claim_C6_single_record_short_circuit (r : PreferenceMetadata) (strategy : String) :
    resolve [r] strategy = .ok r := rfl

/-- C7: `initialize` is idempotent (a no-op when already initialized);
when every registered provider initializes successfully the flag becomes
true; when any provider initialization fails, the first failure propagates
and the flag remains exactly as it was (false), so no partial-success state
is committed. -/
theorem claim_C7_initialize_idempotent_atomic (initialized : Bool) (rs : List (Except PreferenceError Unit)) :
    (initialized = true → PreferenceInjector.initialize initialized rs = (.ok (), true)) ∧
    ((∀ r ∈ rs, r = .ok ()) →
      PreferenceInjector.initialize initialized rs = (.ok (), true)) ∧
    (∀ e, initialized = false → firstFailure rs = some e →
      PreferenceInjector.initialize initialized rs = (.error e, false)) := by
  unfold PreferenceInjector.initialize
  refine ⟨?_, ?_, ?_⟩
  · intro h
    simp [h]
  · intro h
    have hff : firstFailure rs = none := (firstFailure_eq_none_iff rs).mpr h
    cases hinit : initialized with
    | true => simp
    | false => simp [hff]
  · intro e hinit hff
    simp [hinit, hff]

/-- Witness for C7 at concrete inputs. -/
theorem claim_C7_initialize_idempotent_atomic_witness :
    PreferenceInjector.initialize true [.error (.providerError "boom")] = (.ok (), true) ∧
    PreferenceInjector.initialize false [.ok (), .ok ()] = (.ok (), true) ∧
    PreferenceInjector.initialize false [.ok (), .error (.providerError "boom")]
      = (.error (.providerError "boom"), false) := by
  refine ⟨?_, ?_, ?_⟩
  · exact (claim_C7_initialize_idempotent_atomic true _).1 rfl
  · exact (claim_C7_initialize_idempotent_atomic false _).2.1
      (by intro r hr; simp only [List.mem_cons, List.not_mem_nil, or_false] at hr;
          rcases hr with h | h <;> exact h)
  · exact (claim_C7_initialize_idempotent_atomic false
      [.ok (), .error (.providerError "boom")]).2.2 (.providerError "boom") rfl rfl

/-- C8: when every provider returns no metadata for the key (and the cache
was not consulted or missed), `get` returns `options.defaultValue` when one
is provided — never raising — and otherwise fails with a Not-Found error
naming the key. -/
theorem claim_C8_default_on_miss (env : GetEnv) (key : String) (options : GetOptions)
    (hmiss : options.useCache = some false ∨ env.cached = none)
    (hempty : ∀ r ∈ env.providerResults, r = none) :
    (∀ d, options.defaultValue = some d →
      PreferenceInjector.get env key options = .ok ⟨d, [], none⟩) ∧
    (options.defaultValue = none →
      PreferenceInjector.get env key options = .error (.notFoundError key)) := by
  have hcache : (if options.useCache ≠ some false then env.cached else none) = none := by
    rcases hmiss with h | h
    · simp [h]
    · simp [h]
  have hres : env.providerResults.filterMap id = [] :=
    List.filterMap_eq_nil_iff.mpr hempty
  unfold PreferenceInjector.get
  rw [hcache, hres]
  constructor
  · intro d hd
    simp [hd]
  · intro hd
    simp [hd]

/-- Witness for C8 at concrete inputs: two providers, both missing. -/
theorem claim_C8_default_on_miss_witness :
    PreferenceInjector.get
      ⟨none, [none, none], ConflictResolution.HIGHEST_PRIORITY, fun _ => false, id⟩
      "missing" { defaultValue := some (.vStr "d") } = .ok ⟨.vStr "d", [], none⟩ ∧
    PreferenceInjector.get
      ⟨none, [none, none], ConflictResolution.HIGHEST_PRIORITY, fun _ => false, id⟩
      "missing" {} = .error (.notFoundError "missing") := by
  constructor
  · exact (claim_C8_default_on_miss _ "missing" _ (Or.inr rfl)
      (by intro r hr; simpa using hr)).1 _ rfl
  · exact (claim_C8_default_on_miss _ "missing" _ (Or.inr rfl)
      (by intro r hr; simpa using hr)).2 rfl

/-- Every path through `set` reports `validationRan` exactly when
`options?.validate !== false`. -/
theorem set_validationRan (env : SetEnv) (key : String) (value : PreferenceValue) (options : Option SetOptions) :
    (PreferenceInjector.set env key value options).validationRan
      = decide ((match options with | some o => o.validate | none => none) ≠ some false) := by
  unfold PreferenceInjector.set
  simp only []
  split
  · rename_i h
    simp [h.1]
  · split <;> rfl

/-- C9: the `enableValidation` construction flag has no effect — for `true`,
`false` and absent alike the constructor installs the real
`PreferenceValidator` — so `set` with default options always runs
validation, and validation is skipped only per call via
`options.validate === false`. -/
theorem claim_C9_enableValidation_no_effect :
    (∀ flag : Option Bool, PreferenceInjector.chooseValidator flag = .preferenceValidator) ∧
    (∀ env key value, (PreferenceInjector.set env key value none).validationRan = true) ∧
    (∀ env key value opts,
      ((PreferenceInjector.set env key value (some opts)).validationRan = false ↔
        opts.validate = some false)) := by
  refine ⟨?_, ?_, ?_⟩
  · intro flag
    unfold PreferenceInjector.chooseValidator
    split <;> rfl
  · intro env key value
    rw [set_validationRan]
    simp
  · intro env key value opts
    rw [set_validationRan]
    simp

/-- C10: the old-value pre-read in `set`/`delete` swallows every error kind
(the `catch` is unconditional): any failing pre-read is treated as "no
previous value", so a `set` whose pre-read failed proceeds and emits an
ADDED (not CHANGED) event, and a `delete` whose pre-read failed emits its
event with no old value. -/
theorem claim_C10_pre_read_swallows_every_error (env : SetEnv) (denv : DeleteEnv)
    (key dkey : String) (value : PreferenceValue) (options : Option SetOptions)
    (e e' : PreferenceError)
    (hpre : env.oldValueResult = .error e)
    (hval : env.validationResult.valid = true)
    (hw : firstFailure env.providerWriteResults = none)
    (hpre' : denv.oldValueResult = .error e') :
    (∀ err, captureOldValue (.error err) = none) ∧
    (∃ v', (PreferenceInjector.set env key value options).result = .ok v') ∧
    (PreferenceInjector.set env key value options).eventEmitted = some
      { type := .added, key := key, newValue := some value, oldValue := none } ∧
    (∀ ev, (PreferenceInjector.delete denv dkey).eventEmitted = some ev → ev.oldValue = none) := by
  have hcap : captureOldValue env.oldValueResult = none := by rw [hpre]; rfl
  have hcap' : captureOldValue denv.oldValueResult = none := by rw [hpre']; rfl
  refine ⟨fun _ => rfl, ?_, ?_, ?_⟩
  · unfold PreferenceInjector.set
    rw [if_neg (by simp [hval]), hw]
    cases value <;> simp <;> split <;> simp
  · unfold PreferenceInjector.set
    rw [if_neg (by simp [hval]), hw]
    simp [hcap]
  · intro ev hev
    unfold PreferenceInjector.delete at hev
    rcases hff : firstFailure denv.providerDeleteResults with _ | f
    · rw [hff] at hev
      simp only [] at hev
      split at hev
      · rw [hcap'] at hev
        cases hev
        rfl
      · cases hev
    · rw [hff] at hev
      cases hev

/-- Witness for C10 at concrete inputs: the pre-read fails with a Conflict
error (not a Not-Found), yet the `set` proceeds and emits ADDED. -/
theorem claim_C10_pre_read_swallows_every_error_witness :
    (PreferenceInjector.set
        ⟨.error (.conflictError "k" ["a", "b"]), ⟨true, []⟩, id, [.ok ()]⟩
        "k" (.vStr "v") none).eventEmitted = some
      { type := .added, key := "k", newValue := some (.vStr "v"), oldValue := none } := by
  exact (claim_C10_pre_read_swallows_every_error
    ⟨.error (.conflictError "k" ["a", "b"]), ⟨true, []⟩, id, [.ok ()]⟩
    ⟨.error (.providerError "x"), [.ok true]⟩
    "k" "k" (.vStr "v") none
    (.conflictError "k" ["a", "b"]) (.providerError "x")
    rfl rfl rfl rfl).2.2.1

/-- A concrete invalid validation outcome used to test the `set` path. -/
def invalidEnv : SetEnv :=
  { oldValueResult := .error (.notFoundError "k")
    validationResult := ⟨false, [⟨"min", "too small", .vNum 1⟩]⟩
    encryptFn := id
    providerWriteResults := [.ok ()] }

/-- C5 counterexample: with default options the validator runs and the
result is invalid, so `set` fails with the Validation error — but the audit
log of that call is empty: the VALIDATE entry is *not* written on the
invalid outcome (the throw precedes the log), contradicting the claim that
the attempt is logged regardless of outcome. -/
theorem claim_C5_counterexample :
    (PreferenceInjector.set invalidEnv "k" (.vNum 1) none).validationRan = true ∧
    (PreferenceInjector.set invalidEnv "k" (.vNum 1) none).result
      = .error (.validationFailed [⟨"min", "too small", .vNum 1⟩]) ∧
    (PreferenceInjector.set invalidEnv "k" (.vNum 1) none).auditLog = [] ∧
    AuditAction.validate ∉ (PreferenceInjector.set invalidEnv "k" (.vNum 1) none).auditLog := by
  refine ⟨rfl, rfl, rfl, ?_⟩
  intro h
  simp [PreferenceInjector.set, invalidEnv] at h

/-- C5 (amended): unless `options.validate` is explicitly `false` the
validator runs; on an invalid result the call fails with a Validation error
carrying the structured error list, and the attempt is audit-logged only on
the valid outcome — the invalid path throws before the VALIDATE log — and
never when validation is skipped. -/
theorem claim_C5_amended_validation_logging (env : SetEnv) (key : String)
    (value : PreferenceValue) (options : Option SetOptions) :
    ((match options with | some o => o.validate | none => none) ≠ some false →
      (PreferenceInjector.set env key value options).validationRan = true ∧
      (env.validationResult.valid = false →
        (PreferenceInjector.set env key value options).result
          = .error (.validationFailed env.validationResult.errors) ∧
        AuditAction.validate ∉ (PreferenceInjector.set env key value options).auditLog) ∧
      (env.validationResult.valid = true →
        AuditAction.validate ∈ (PreferenceInjector.set env key value options).auditLog)) ∧
    ((match options with | some o => o.validate | none => none) = some false →
      (PreferenceInjector.set env key value options).validationRan = false ∧
      AuditAction.validate ∉ (PreferenceInjector.set env key value options).auditLog) := by
  constructor
  · intro hv
    refine ⟨by rw [set_validationRan]; simp [hv], ?_, ?_⟩
    · intro hinvalid
      unfold PreferenceInjector.set
      rw [if_pos ⟨hv, by simp [hinvalid]⟩]
      exact ⟨rfl, by simp⟩
    · intro hvalid
      unfold PreferenceInjector.set
      rw [if_neg (by simp [hvalid])]
      rcases hff : firstFailure env.providerWriteResults with _ | f <;>
        simp [hv]
  · intro hv
    refine ⟨by rw [set_validationRan]; simp [hv], ?_⟩
    unfold PreferenceInjector.set
    rw [if_neg (by simp [hv])]
    rcases hff : firstFailure env.providerWriteResults with _ | f <;>
      simp [hv] <;> cases value <;> simp <;> split <;> simp

/-- Witness for the amended C5 at concrete inputs: a valid run logs
VALIDATE; a run with `validate: false` skips validation and logs no
VALIDATE entry. -/
theorem claim_C5_amended_validation_logging_witness :
    AuditAction.validate ∈ (PreferenceInjector.set
      ⟨.error (.notFoundError "k"), ⟨true, []⟩, id, [.ok ()]⟩
      "k" (.vNum 1) none).auditLog ∧
    (PreferenceInjector.set
      ⟨.error (.notFoundError "k"), ⟨true, []⟩, id, [.ok ()]⟩
      "k" (.vNum 1) (some { validate := some false })).validationRan = false := by
  constructor
  · exact ((claim_C5_amended_validation_logging
      ⟨.error (.notFoundError "k"), ⟨true, []⟩, id, [.ok ()]⟩
      "k" (.vNum 1) none).1 (by simp)).2.2 rfl
  · exact ((claim_C5_amended_validation_logging
      ⟨.error (.notFoundError "k"), ⟨true, []⟩, id, [.ok ()]⟩
      "k" (.vNum 1) (some { validate := some false })).2 rfl).1

/-- One `reduce` step towards the highest-priority record: the step keeps
an element of the pair, never decreases the accumulated priority, and at
equal priority never decreases the accumulated timestamp. -/
theorem highestStep_spec (h c : PreferenceMetadata) :
    (highestStep h c = h ∨ highestStep h c = c) ∧
    h.priority ≤ (highestStep h c).priority ∧
    c.priority ≤ (highestStep h c).priority ∧
    (h.priority = (highestStep h c).priority → h.timestamp ≤ (highestStep h c).timestamp) ∧
    (c.priority = (highestStep h c).priority → c.timestamp ≤ (highestStep h c).timestamp) := by
  unfold highestStep
  split
  · rename_i h1
    exact ⟨Or.inr rfl, by omega, le_refl _, by omega, fun _ => le_refl _⟩
  · split
    · rename_i h1 h2
      exact ⟨Or.inr rfl, by omega, le_refl _, by omega, fun _ => le_refl _⟩
    · rename_i h1 h2
      refine ⟨Or.inl rfl, le_refl _, by omega, fun _ => le_refl _, fun hp => ?_⟩
      rcases not_and_or.mp h2 with h' | h'
      · omega
      · omega

/-- One `reduce` step towards the lowest-priority record (mirrored). -/
theorem lowestStep_spec (h c : PreferenceMetadata) :
    (lowestStep h c = h ∨ lowestStep h c = c) ∧
    (lowestStep h c).priority ≤ h.priority ∧
    (lowestStep h c).priority ≤ c.priority ∧
    (h.priority = (lowestStep h c).priority → (lowestStep h c).timestamp ≤ h.timestamp) ∧
    (c.priority = (lowestStep h c).priority → (lowestStep h c).timestamp ≤ c.timestamp) := by
  unfold lowestStep
  split
  · rename_i h1
    exact ⟨Or.inr rfl, by omega, le_refl _, by omega, fun _ => le_refl _⟩
  · split
    · rename_i h1 h2
      exact ⟨Or.inr rfl, by omega, le_refl _, by omega, fun _ => le_refl _⟩
    · rename_i h1 h2
      refine ⟨Or.inl rfl, le_refl _, by omega, fun _ => le_refl _, fun hp => ?_⟩
      rcases not_and_or.mp h2 with h' | h'
      · omega
      · omega

/-- The `reduce` of `resolveByHighestPriority` returns a record of the
collection whose priority dominates every record's, and whose timestamp
dominates every record's among those of equal priority. -/
theorem foldl_highestStep_spec (first : PreferenceMetadata) (rest : List PreferenceMetadata) :
    (rest.foldl highestStep first = first ∨ rest.foldl highestStep first ∈ rest) ∧
    first.priority ≤ (rest.foldl highestStep first).priority ∧
    (∀ x ∈ rest, x.priority ≤ (rest.foldl highestStep first).priority) ∧
    (first.priority = (rest.foldl highestStep first).priority →
      first.timestamp ≤ (rest.foldl highestStep first).timestamp) ∧
    (∀ x ∈ rest, x.priority = (rest.foldl highestStep first).priority →
      x.timestamp ≤ (rest.foldl highestStep first).timestamp) := by
  induction rest generalizing first with
  | nil =>
    exact ⟨Or.inl rfl, le_refl _, by simp, fun _ => le_refl _, by simp⟩
  | cons a as ih =>
    obtain ⟨imem, ipr, iprs, its, itss⟩ := ih (highestStep first a)
    obtain ⟨smem, spr1, spr2, sts1, sts2⟩ := highestStep_spec first a
    simp only [List.foldl_cons]
    refine ⟨?_, ?_, ?_, ?_, ?_⟩
    · rcases imem with h | h
      · rw [h]
        rcases smem with h' | h'
        · exact Or.inl h'
        · exact Or.inr (by rw [h']; exact List.mem_cons_self a as)
      · exact Or.inr (List.mem_cons_of_mem a h)
    · exact le_trans spr1 ipr
    · intro x hx
      rcases List.mem_cons.mp hx with h | h
      · rw [h]; exact le_trans spr2 ipr
      · exact iprs x h
    · intro hp
      have h1 : first.priority = (highestStep first a).priority := le_antisymm spr1 (by omega)
      exact le_trans (sts1 h1) (its (by omega))
    · intro x hx hp
      rcases List.mem_cons.mp hx with h | h
      · subst h
        have h1 : x.priority = (highestStep first x).priority := le_antisymm spr2 (by omega)
        exact le_trans (sts2 h1) (its (by omega))
      · exact itss x h hp

/-- The `reduce` of `resolveByLowestPriority` (mirrored). -/
theorem foldl_lowestStep_spec (first : PreferenceMetadata) (rest : List PreferenceMetadata) :
    (rest.foldl lowestStep first = first ∨ rest.foldl lowestStep first ∈ rest) ∧
    (rest.foldl lowestStep first).priority ≤ first.priority ∧
    (∀ x ∈ rest, (rest.foldl lowestStep first).priority ≤ x.priority) ∧
    (first.priority = (rest.foldl lowestStep first).priority →
      (rest.foldl lowestStep first).timestamp ≤ first.timestamp) ∧
    (∀ x ∈ rest, x.priority = (rest.foldl lowestStep first).priority →
      (rest.foldl lowestStep first).timestamp ≤ x.timestamp) := by
  induction rest generalizing first with
  | nil =>
    exact ⟨Or.inl rfl, le_refl _, by simp, fun _ => le_refl _, by simp⟩
  | cons a as ih =>
    obtain ⟨imem, ipr, iprs, its, itss⟩ := ih (lowestStep first a)
    obtain ⟨smem, spr1, spr2, sts1, sts2⟩ := lowestStep_spec first a
    simp only [List.foldl_cons]
    refine ⟨?_, ?_, ?_, ?_, ?_⟩
    · rcases imem with h | h
      · rw [h]
        rcases smem with h' | h'
        · exact Or.inl h'
        · exact Or.inr (by rw [h']; exact List.mem_cons_self a as)
      · exact Or.inr (List.mem_cons_of_mem a h)
    · exact le_trans ipr spr1
    · intro x hx
      rcases List.mem_cons.mp hx with h | h
      · rw [h]; exact le_trans ipr spr2
      · exact iprs x h
    · intro hp
      have h1 : first.priority = (lowestStep first a).priority := by omega
      exact le_trans (its (by omega)) (sts1 h1)
    · intro x hx hp
      rcases List.mem_cons.mp hx with h | h
      · subst h
        have h1 : x.priority = (lowestStep first x).priority := by omega
        exact le_trans (its (by omega)) (sts2 h1)
      · exact itss x h hp

/-- C1: with two or more records, `HIGHEST_PRIORITY` resolution returns a
record of the collection with the numerically greatest priority, breaking
equal-priority ties towards the greater timestamp (newest wins); with
`LOWEST_PRIORITY` it returns one with the smallest priority, breaking
equal-priority ties towards the smaller timestamp (oldest wins) — the two
tie-breaks are mirrored. -/
theorem claim_C1_priority_strategies (conflicts : List PreferenceMetadata)
    (h2 : 2 ≤ conflicts.length) :
    (∃ r, resolve conflicts ConflictResolution.HIGHEST_PRIORITY = .ok r ∧ r ∈ conflicts ∧
      (∀ c ∈ conflicts, c.priority ≤ r.priority) ∧
      (∀ c ∈ conflicts, c.priority = r.priority → c.timestamp ≤ r.timestamp)) ∧
    (∃ r, resolve conflicts ConflictResolution.LOWEST_PRIORITY = .ok r ∧ r ∈ conflicts ∧
      (∀ c ∈ conflicts, r.priority ≤ c.priority) ∧
      (∀ c ∈ conflicts, c.priority = r.priority → r.timestamp ≤ c.timestamp)) := by
  match conflicts, h2 with
  | a :: b :: cs, _ =>
    constructor
    · refine ⟨resolveByHighestPriority a (b :: cs), rfl, ?_, ?_, ?_⟩
      · obtain ⟨imem, -, -, -, -⟩ := foldl_highestStep_spec a (b :: cs)
        unfold resolveByHighestPriority
        rcases imem with h | h
        · rw [h]; exact List.mem_cons_self _ _
        · exact List.mem_cons_of_mem a h
      · intro c hc
        obtain ⟨-, ipr, iprs, -, -⟩ := foldl_highestStep_spec a (b :: cs)
        unfold resolveByHighestPriority
        rcases List.mem_cons.mp hc with h | h
        · rw [h]; exact ipr
        · exact iprs c h
      · intro c hc
        obtain ⟨-, -, -, its, itss⟩ := foldl_highestStep_spec a (b :: cs)
        unfold resolveByHighestPriority
        rcases List.mem_cons.mp hc with h | h
        · rw [h]; exact its
        · exact itss c h
    · refine ⟨resolveByLowestPriority a (b :: cs), rfl, ?_, ?_, ?_⟩
      · obtain ⟨imem, -, -, -, -⟩ := foldl_lowestStep_spec a (b :: cs)
        unfold resolveByLowestPriority
        rcases imem with h | h
        · rw [h]; exact List.mem_cons_self _ _
        · exact List.mem_cons_of_mem a h
      · intro c hc
        obtain ⟨-, ipr, iprs, -, -⟩ := foldl_lowestStep_spec a (b :: cs)
        unfold resolveByLowestPriority
        rcases List.mem_cons.mp hc with h | h
        · rw [h]; exact ipr
        · exact iprs c h
      · intro c hc
        obtain ⟨-, -, -, its, itss⟩ := foldl_lowestStep_spec a (b :: cs)
        unfold resolveByLowestPriority
        rcases List.mem_cons.mp hc with h | h
        · rw [h]; exact its
        · exact itss c h

/-- Three records with priorities 25, 75, 50 (distinct timestamps). -/
def sample1 : PreferenceMetadata := ⟨"k", .vStr "a", 25, "s1", 10, none, none, none⟩

def sample2 : PreferenceMetadata := ⟨"k", .vStr "b", 75, "s2", 5, none, none, none⟩

def sample3 : PreferenceMetadata := ⟨"k", .vStr "c", 50, "s3", 1, none, none, none⟩

/-- Witness for C1: applying the theorem to the concrete records with
priorities [25, 75, 50]. -/
theorem claim_C1_priority_strategies_witness :
    2 ≤ ([sample1, sample2, sample3] : List PreferenceMetadata).length ∧
    (∃ r, resolve [sample1, sample2, sample3] ConflictResolution.HIGHEST_PRIORITY = .ok r ∧
      r ∈ [sample1, sample2, sample3] ∧
      (∀ c ∈ [sample1, sample2, sample3], c.priority ≤ r.priority) ∧
      (∀ c ∈ [sample1, sample2, sample3], c.priority = r.priority → c.timestamp ≤ r.timestamp)) := by
  exact ⟨by decide, (claim_C1_priority_strategies [sample1, sample2, sample3] (by decide)).1⟩

/-! ### Association-list lemmas -/

theorem mapGet_isSome_iff_mem_keys {β : Type} (m : List (String × β)) (k : String) :
    (mapGet m k).isSome ↔ k ∈ mapKeys m := by
  induction m with
  | nil => simp [mapGet, mapKeys]
  | cons p rest ih =>
    obtain ⟨k₁, v₁⟩ := p
    simp only [mapGet, mapKeys, List.map_cons, List.mem_cons]
    split
    · rename_i h
      simp [h]
    · rename_i h
      rw [ih]
      constructor
      · exact fun hm => Or.inr hm
      · rintro (h' | h')
        · exact absurd h'.symm h
        · exact h'

theorem mapGet_eq_none_iff_not_mem_keys {β : Type} (m : List (String × β)) (k : String) :
    mapGet m k = none ↔ k ∉ mapKeys m := by
  rw [← mapGet_isSome_iff_mem_keys, ← Option.not_isSome_iff_eq_none]

theorem mapGet_mapSet_self {β : Type} (m : List (String × β)) (k : String) (v : β) :
    mapGet (mapSet m k v) k = some v := by
  induction m with
  | nil => simp [mapGet, mapSet]
  | cons p rest ih =>
    obtain ⟨k₁, v₁⟩ := p
    simp only [mapSet]
    split
    · simp [mapGet]
    · rename_i h
      simp only [mapGet]
      rw [if_neg h]
      exact ih

theorem mapGet_mapSet_ne {β : Type} (m : List (String × β)) (k k' : String) (v : β)
    (hne : k' ≠ k) : mapGet (mapSet m k v) k' = mapGet m k' := by
  induction m with
  | nil =>
    show (if k = k' then some v else (none : Option β)) = none
    rw [if_neg (fun h => hne h.symm)]
  | cons p rest ih =>
    obtain ⟨k₁, v₁⟩ := p
    simp only [mapSet]
    split
    · rename_i h
      subst h
      simp only [mapGet]
      rw [if_neg (fun h => hne h.symm), if_neg (fun h => hne h.symm)]
    · simp only [mapGet]
      split
      · rfl
      · exact ih

theorem length_mapSet_of_none {β : Type} (m : List (String × β)) (k : String) (v : β)
    (h : mapGet m k = none) : (mapSet m k v).length = m.length + 1 := by
  induction m with
  | nil => simp [mapSet]
  | cons p rest ih =>
    obtain ⟨k₁, v₁⟩ := p
    simp only [mapGet] at h
    rcases eq_or_ne k₁ k with h' | h'
    · rw [if_pos h'] at h
      cases h
    · rw [if_neg h'] at h
      simp only [mapSet, if_neg h', List.length_cons]
      rw [ih h]

theorem mapKeys_mapSet_of_none {β : Type} (m : List (String × β)) (k : String) (v : β)
    (h : mapGet m k = none) : mapKeys (mapSet m k v) = mapKeys m ++ [k] := by
  induction m with
  | nil => simp [mapSet, mapKeys]
  | cons p rest ih =>
    obtain ⟨k₁, v₁⟩ := p
    simp only [mapGet] at h
    rcases eq_or_ne k₁ k with h' | h'
    · rw [if_pos h'] at h
      cases h
    · rw [if_neg h'] at h
      simp only [mapKeys, List.map_cons] at ih ⊢
      simp only [mapSet, if_neg h', List.map_cons, List.cons_append]
      rw [ih h]

theorem mapKeys_mapDelete {β : Type} (m : List (String × β)) (k : String) :
    mapKeys (mapDelete m k) = (mapKeys m).erase k := by
  induction m with
  | nil => simp [mapDelete, mapKeys]
  | cons p rest ih =>
    obtain ⟨k₁, v₁⟩ := p
    simp only [mapDelete, mapKeys, List.map_cons, List.erase_cons]
    split
    · rename_i h
      rw [if_pos (by exact beq_iff_eq.mpr h)]
    · rename_i h
      rw [if_neg (by simp [h])]
      simp only [mapKeys, List.map_cons] at ih ⊢
      rw [ih]

theorem mapGet_mapDelete_self {β : Type} (m : List (String × β)) (k : String)
    (hnodup : (mapKeys m).Nodup) : mapGet (mapDelete m k) k = none := by
  induction m with
  | nil => simp [mapDelete, mapGet]
  | cons p rest ih =>
    obtain ⟨k₁, v₁⟩ := p
    simp only [mapKeys, List.map_cons, List.nodup_cons] at hnodup
    simp only [mapDelete]
    split
    · rename_i h
      subst h
      rw [mapGet_eq_none_iff_not_mem_keys]
      exact hnodup.1
    · rename_i h
      simp only [mapGet]
      rw [if_neg h]
      exact ih hnodup.2

theorem mapGet_mapDelete_ne {β : Type} (m : List (String × β)) (k k' : String)
    (hne : k' ≠ k) : mapGet (mapDelete m k) k' = mapGet m k' := by
  induction m with
  | nil => rfl
  | cons p rest ih =>
    obtain ⟨k₁, v₁⟩ := p
    simp only [mapDelete]
    split
    · rename_i h
      subst h
      simp only [mapGet]
      rw [if_neg (fun h => hne h.symm)]
    · simp only [mapGet]
      split
      · rfl
      · exact ih

theorem length_mapDelete_of_isSome {β : Type} (m : List (String × β)) (k : String)
    (h : (mapGet m k).isSome) : (mapDelete m k).length + 1 = m.length := by
  induction m with
  | nil => simp [mapGet] at h
  | cons p rest ih =>
    obtain ⟨k₁, v₁⟩ := p
    simp only [mapGet] at h
    simp only [mapDelete, List.length_cons]
    rcases eq_or_ne k₁ k with h' | h'
    · rw [if_pos h']
    · rw [if_neg h'] at h
      rw [if_neg h', List.length_cons, ih h]

/-! ### LRUCache lemmas -/

/-- A well-formed cache has as many recency entries as map entries. -/
theorem LRUCache.wf_length (st : LRUCache) (hwf : st.wf) :
    st.accessOrder.length = st.cache.length := by
  obtain ⟨h1, h2, h3⟩ := hwf
  have hperm : (mapKeys st.cache).Perm st.accessOrder := by
    rw [List.perm_ext_iff_of_nodup h1 h2]
    intro a
    rw [← h3 a, mapGet_isSome_iff_mem_keys]
  have hlen := hperm.length_eq
  simp only [mapKeys, List.length_map] at hlen
  omega

/-- A fresh (non-expired) cache hit returns the stored metadata and moves
the key to the most-recently-used end of the access order, leaving the map
untouched; well-formedness is preserved. -/
theorem lru_get_refresh (st : LRUCache) (now : Int) (key : String) (e : CacheEntry)
    (hwf : st.wf) (hhit : mapGet st.cache key = some e) (hfresh : now ≤ e.expiresAt) :
    (st.get now key).1 = some e.value ∧
    (st.get now key).2.cache = st.cache ∧
    (st.get now key).2.accessOrder = st.accessOrder.erase key ++ [key] ∧
    (st.get now key).2.maxSize = st.maxSize ∧
    (st.get now key).2.wf := by
  obtain ⟨h1, h2, h3⟩ := hwf
  have hkey : key ∈ st.accessOrder := by
    rw [← h3 key, hhit]
    rfl
  have hget : st.get now key =
      (some e.value, { st with accessOrder := st.accessOrder.erase key ++ [key] }) := by
    unfold LRUCache.get
    rw [hhit]
    simp only []
    rw [if_neg (by omega)]
  rw [hget]
  refine ⟨rfl, rfl, rfl, rfl, h1, ?_, ?_⟩
  · rw [List.nodup_append]
    refine ⟨h2.erase key, List.nodup_singleton key, ?_⟩
    intro a ha hb
    simp only [List.mem_singleton] at hb
    subst hb
    exact absurd ha (by simp [h2.mem_erase_iff])
  · intro k
    rw [h3 k, List.mem_append, List.mem_singleton]
    rcases eq_or_ne k key with h | h
    · subst h
      simp [hkey]
    · simp [List.mem_erase_of_ne h, h]

/-- Inserting a fresh key into a full well-formed cache evicts exactly the
least-recently-used key (the front of the access order) and nothing else;
the new key is present, every other key is untouched, the size returns to
the maximum, and well-formedness is preserved. -/
theorem lru_set_evicts (st : LRUCache) (now : Int) (key : String)
    (v : PreferenceMetadata) (ttl : Option Int)
    (hwf : st.wf) (hfull : st.cache.length = st.maxSize) (hpos : 0 < st.maxSize)
    (hnew : mapGet st.cache key = none) :
    ∃ f rest, st.accessOrder = f :: rest ∧ f ≠ key ∧
      (st.set now key v ttl).cache.length = st.maxSize ∧
      mapGet (st.set now key v ttl).cache f = none ∧
      (mapGet (st.set now key v ttl).cache key).isSome ∧
      (∀ k₀, k₀ ≠ f → k₀ ≠ key → mapGet (st.set now key v ttl).cache k₀ = mapGet st.cache k₀) ∧
      (st.set now key v ttl).accessOrder = rest ++ [key] ∧
      (st.set now key v ttl).maxSize = st.maxSize ∧
      (st.set now key v ttl).wf := by
  obtain ⟨h1, h2, h3⟩ := hwf
  have hlen : st.accessOrder.length = st.cache.length :=
    LRUCache.wf_length st ⟨h1, h2, h3⟩
  obtain ⟨f, rest, hao⟩ : ∃ f rest, st.accessOrder = f :: rest := by
    cases hao : st.accessOrder with
    | nil =>
      rw [hao] at hlen
      simp only [List.length_nil] at hlen
      omega
    | cons f rest => exact ⟨f, rest, rfl⟩
  have hfmem : f ∈ st.accessOrder := by rw [hao]; exact List.mem_cons_self f rest
  have hfsome : (mapGet st.cache f).isSome := (h3 f).mpr hfmem
  have hfke : f ≠ key := by
    intro h
    rw [h, hnew] at hfsome
    cases hfsome
  have hknotmem : key ∉ mapKeys st.cache :=
    (mapGet_eq_none_iff_not_mem_keys st.cache key).mp hnew
  have hknotao : key ∉ st.accessOrder := by
    intro h
    have := (h3 key).mpr h
    rw [hnew] at this
    cases this
  -- evaluate `set`
  set entry : CacheEntry := ⟨v, now + (match ttl with
    | some t => if t ≠ 0 then t else st.defaultTTL
    | none => st.defaultTTL)⟩ with hentry
  have hsetlen : (mapSet st.cache key entry).length = st.maxSize + 1 := by
    rw [length_mapSet_of_none st.cache key entry hnew, hfull]
  have hset : st.set now key v ttl =
      { st with
        cache := mapDelete (mapSet st.cache key entry) f
        accessOrder := rest ++ [key] } := by
    unfold LRUCache.set
    rw [hnew]
    simp only [Option.isSome_none, Bool.false_eq_true, if_false, ← hentry]
    rw [if_pos (by show (mapSet st.cache key entry).length > st.maxSize; omega)]
    unfold LRUCache.evictOldest
    simp only [hao, List.cons_append]
    unfold LRUCache.delete LRUCache.removeFromAccessOrder
    simp only [List.erase_cons_head]
  have hkeysset : mapKeys (mapSet st.cache key entry) = mapKeys st.cache ++ [key] :=
    mapKeys_mapSet_of_none st.cache key entry hnew
  have hnodupset : (mapKeys (mapSet st.cache key entry)).Nodup := by
    rw [hkeysset, List.nodup_append]
    exact ⟨h1, List.nodup_singleton key, by
      intro a ha hb
      simp only [List.mem_singleton] at hb
      subst hb
      exact hknotmem ha⟩
  have hfsome' : (mapGet (mapSet st.cache key entry) f).isSome := by
    rw [mapGet_mapSet_ne st.cache key f entry hfke]
    exact hfsome
  have hgf : mapGet (mapDelete (mapSet st.cache key entry) f) f = none :=
    mapGet_mapDelete_self _ f hnodupset
  have hgkey : mapGet (mapDelete (mapSet st.cache key entry) f) key = some entry := by
    rw [mapGet_mapDelete_ne _ f key (fun h => hfke h.symm)]
    exact mapGet_mapSet_self st.cache key entry
  have hgother : ∀ k₀, k₀ ≠ f → k₀ ≠ key →
      mapGet (mapDelete (mapSet st.cache key entry) f) k₀ = mapGet st.cache k₀ := by
    intro k₀ hk₀f hk₀key
    rw [mapGet_mapDelete_ne _ f k₀ hk₀f, mapGet_mapSet_ne st.cache key k₀ entry hk₀key]
  have hfnotrest : f ∉ rest := by
    have := h2
    rw [hao, List.nodup_cons] at this
    exact this.1
  have hrestnodup : rest.Nodup := by
    have := h2
    rw [hao, List.nodup_cons] at this
    exact this.2
  have hknotrest : key ∉ rest := fun h => hknotao (by rw [hao]; exact List.mem_cons_of_mem f h)
  refine ⟨f, rest, hao, hfke, ?_, ?_, ?_, ?_, ?_, ?_, ?_⟩
  · rw [hset]
    show (mapDelete (mapSet st.cache key entry) f).length = st.maxSize
    have := length_mapDelete_of_isSome (mapSet st.cache key entry) f hfsome'
    omega
  · rw [hset]
    exact hgf
  · rw [hset]
    rw [hgkey]
    rfl
  · intro k₀ hk₀f hk₀key
    rw [hset]
    exact hgother k₀ hk₀f hk₀key
  · rw [hset]
  · rw [hset]
  · rw [hset]
    refine ⟨?_, ?_, ?_⟩
    · rw [mapKeys_mapDelete]
      exact hnodupset.erase f
    · rw [List.nodup_append]
      exact ⟨hrestnodup, List.nodup_singleton key, by
        intro a ha hb
        simp only [List.mem_singleton] at hb
        subst hb
        exact hknotrest ha⟩
    · intro k
      simp only [List.mem_append, List.mem_singleton]
      rcases eq_or_ne k key with h | hkey'
      · subst h
        rw [hgkey]
        simp
      · rcases eq_or_ne k f with h | hf'
        · subst h
          rw [hgf]
          simp only [Option.isSome_none, Bool.false_eq_true, false_iff]
          rintro (h | h)
          · exact hfnotrest h
          · exact hfke h
        · rw [hgother k hf' hkey']
          rw [h3 k, hao, List.mem_cons]
          constructor
          · rintro (h | h)
            · exact absurd h hf'
            · exact Or.inl h
          · rintro (h | h)
            · exact Or.inr h
            · exact absurd h hkey'

/-- C4: for a well-formed `LRUCache`, (a) inserting a fresh key when the
cache holds exactly `maxSize` entries evicts exactly the least-recently-
touched key — the front of the recency order, one eviction for the one
`set` call — leaving every other entry untouched and the size at `maxSize`;
(b) a `get` on a cached (non-expired) key returns it and moves it to the
most-recently-used position; (c) consequently such a `get` protects that
key from the eviction caused by the next fresh insert. -/
theorem claim_C4_lru_eviction_and_protection (st : LRUCache) (now now2 : Int)
    (key k' : String) (e : CacheEntry) (v v' : PreferenceMetadata) (ttl ttl' : Option Int)
    (hwf : st.wf) :
    ((st.cache.length = st.maxSize ∧ 0 < st.maxSize ∧ mapGet st.cache key = none) →
      ∃ f rest, st.accessOrder = f :: rest ∧ f ≠ key ∧
        (st.set now key v ttl).cache.length = st.maxSize ∧
        mapGet (st.set now key v ttl).cache f = none ∧
        (mapGet (st.set now key v ttl).cache key).isSome ∧
        (∀ k₀, k₀ ≠ f → k₀ ≠ key →
          mapGet (st.set now key v ttl).cache k₀ = mapGet st.cache k₀)) ∧
    ((mapGet st.cache key = some e ∧ now ≤ e.expiresAt) →
      (st.get now key).1 = some e.value ∧
      (st.get now key).2.accessOrder = st.accessOrder.erase key ++ [key]) ∧
    ((mapGet st.cache key = some e ∧ now ≤ e.expiresAt ∧ st.cache.length = st.maxSize ∧
        2 ≤ st.maxSize ∧ mapGet st.cache k' = none) →
      (mapGet (((st.get now key).2).set now2 k' v' ttl').cache key).isSome) := by
  refine ⟨?_, ?_, ?_⟩
  · rintro ⟨hfull, hpos, hnew⟩
    obtain ⟨f, rest, hao, hfke, hlen, hgf, hgkey, hother, -, -, -⟩ :=
      lru_set_evicts st now key v ttl hwf hfull hpos hnew
    exact ⟨f, rest, hao, hfke, hlen, hgf, hgkey, hother⟩
  · rintro ⟨hhit, hfresh⟩
    obtain ⟨hv, -, hao, -, -⟩ := lru_get_refresh st now key e hwf hhit hfresh
    exact ⟨hv, hao⟩
  · rintro ⟨hhit, hfresh, hfull, h2, hk'⟩
    obtain ⟨-, hc, hao2, hms, hwf2⟩ := lru_get_refresh st now key e hwf hhit hfresh
    have hfull2 : (st.get now key).2.cache.length = (st.get now key).2.maxSize := by
      rw [hc, hms]; exact hfull
    have hpos2 : 0 < (st.get now key).2.maxSize := by rw [hms]; omega
    have hk2 : mapGet (st.get now key).2.cache k' = none := by rw [hc]; exact hk'
    obtain ⟨f, rest, hao', hfk', hlen', hgf', hgkey', hother', -, -, -⟩ :=
      lru_set_evicts (st.get now key).2 now2 k' v' ttl' hwf2 hfull2 hpos2 hk2
    have hkk' : key ≠ k' := by
      intro h
      rw [h, hk'] at hhit
      cases hhit
    have hkmem : key ∈ st.accessOrder := by
      rw [← hwf.2.2 key, hhit]
      rfl
    have hlenao : st.accessOrder.length = st.cache.length := LRUCache.wf_length st hwf
    have herlen : (st.accessOrder.erase key).length = st.accessOrder.length - 1 :=
      List.length_erase_of_mem hkmem
    have hkf : key ≠ f := by
      cases herase : st.accessOrder.erase key with
      | nil =>
        rw [herase] at herlen
        simp only [List.length_nil] at herlen
        omega
      | cons x xs =>
        have : f :: rest = x :: (xs ++ [key]) := by
          rw [← hao', hao2, herase, List.cons_append]
        have hfx : f = x := by injection this
        intro h
        have : key ∈ st.accessOrder.erase key := by
          rw [herase]
          rw [h, hfx]
          exact List.mem_cons_self x xs
        exact absurd this (by simp [hwf.2.1.mem_erase_iff])
    have := hother' key hkf hkk'
    rw [this, hc, hhit]
    rfl

/-- A full two-entry cache holding keys `a` (least recent) and `b`. -/
def lruSample : LRUCache :=
  ⟨2, 100, [("a", ⟨sample1, 100⟩), ("b", ⟨sample2, 100⟩)], ["a", "b"]⟩

theorem lruSample_wf : lruSample.wf := by
  refine ⟨by decide, by decide, ?_⟩
  intro k
  show (mapGet lruSample.cache k).isSome ↔ k ∈ ["a", "b"]
  simp only [lruSample, mapGet]
  rcases eq_or_ne "a" k with h | h
  · subst h
    simp
  · rw [if_neg h]
    rcases eq_or_ne "b" k with h' | h'
    · subst h'
      simp
    · rw [if_neg h']
      simp [Ne.symm h, Ne.symm h']

/-- Witness for C4: on the concrete two-entry cache, inserting fresh key
`c` evicts exactly the front key `a`; and first reading `a` (refreshing it)
protects `a` from the eviction caused by inserting `c`. -/
theorem claim_C4_lru_eviction_and_protection_witness :
    (∃ f rest, lruSample.accessOrder = f :: rest ∧ f ≠ "c" ∧
      (lruSample.set 0 "c" sample3 none).cache.length = lruSample.maxSize ∧
      mapGet (lruSample.set 0 "c" sample3 none).cache f = none ∧
      (mapGet (lruSample.set 0 "c" sample3 none).cache "c").isSome ∧
      (∀ k₀, k₀ ≠ f → k₀ ≠ "c" →
        mapGet (lruSample.set 0 "c" sample3 none).cache k₀ = mapGet lruSample.cache k₀)) ∧
    (mapGet (((lruSample.get 0 "a").2).set 0 "c" sample3 none).cache "a").isSome := by
  constructor
  · exact (claim_C4_lru_eviction_and_protection lruSample 0 0 "c" "c" ⟨sample1, 100⟩
      sample3 sample3 none none lruSample_wf).1 ⟨rfl, by decide, rfl⟩
  · exact (claim_C4_lru_eviction_and_protection lruSample 0 0 "a" "c" ⟨sample1, 100⟩
      sample3 sample3 none none lruSample_wf).2.2 ⟨rfl, by decide, rfl, by decide, rfl⟩

/-! ### Merge-strategy lemmas -/

theorem mergeLe_iff (a b : PreferenceMetadata) :
    mergeLe a b = true ↔
      (a.priority < b.priority ∨ (a.priority = b.priority ∧ a.timestamp ≤ b.timestamp)) := by
  unfold mergeLe
  split
  · rename_i h
    simp only [decide_eq_true_eq]
    omega
  · rename_i h
    simp only [decide_eq_true_eq]
    omega

theorem mergeLe_trans (a b c : PreferenceMetadata)
    (hab : mergeLe a b = true) (hbc : mergeLe b c = true) : mergeLe a c = true := by
  rw [mergeLe_iff] at hab hbc ⊢
  omega

theorem mergeLe_total (a b : PreferenceMetadata) : (mergeLe a b || mergeLe b a) = true := by
  rw [Bool.or_eq_true, mergeLe_iff, mergeLe_iff]
  omega

/-- A stable merge sort of a two-element list keeps the order exactly when
the first element is `le` the second. -/
theorem mergeSort_pair {α : Type} (le : α → α → Bool)
    (htrans : ∀ a b c, le a b = true → le b c = true → le a c = true)
    (htotal : ∀ a b, (le a b || le b a) = true) (a b : α) :
    [a, b].mergeSort le = if le a b then [a, b] else [b, a] := by
  obtain ⟨l₁, l₂, heq, heq2, hl₁⟩ := List.mergeSort_cons htrans htotal a [b]
  rw [List.mergeSort_singleton] at heq2
  cases l₁ with
  | nil =>
    simp only [List.nil_append] at heq heq2
    subst heq2
    cases hab : le a b with
    | false =>
      have hp := List.sorted_mergeSort htrans htotal [a, b]
      rw [heq] at hp
      rw [List.pairwise_cons] at hp
      have := hp.1 b (List.mem_singleton.mpr rfl)
      rw [hab] at this
      cases this
    | true =>
      rw [heq, if_pos rfl]
  | cons x xs =>
    rw [List.cons_append] at heq2
    injection heq2 with hbx hnil
    obtain ⟨hxsnil, hl₂nil⟩ := List.append_eq_nil.mp hnil.symm
    subst hxsnil hl₂nil
    have hax : le a x = false := by
      have := hl₁ x (List.mem_singleton.mpr rfl)
      simpa using this
    have hab : le a b = false := by rw [hbx]; exact hax
    rw [heq, hab]
    simp only [Bool.false_eq_true, if_false, List.cons_append, List.nil_append]
    rw [← hbx]

/-- Writing a key absent from the object appends the entry. -/
theorem mapSet_eq_append_of_none {β : Type} (m : List (String × β)) (k : String) (v : β)
    (h : mapGet m k = none) : mapSet m k v = m ++ [(k, v)] := by
  induction m with
  | nil => rfl
  | cons p rest ih =>
    obtain ⟨k₁, v₁⟩ := p
    simp only [mapGet] at h
    rcases eq_or_ne k₁ k with h' | h'
    · rw [if_pos h'] at h
      cases h
    · rw [if_neg h'] at h
      simp only [mapSet, if_neg h', List.cons_append]
      rw [ih h]

theorem mergeEntries_nil (res : List (String × PreferenceValue)) :
    mergeEntries res [] = res := by
  unfold mergeEntries
  rfl

theorem mergeEntries_cons (res : List (String × PreferenceValue)) (k : String)
    (val : PreferenceValue) (rest : List (String × PreferenceValue)) :
    mergeEntries res ((k, val) :: rest) =
      mergeEntries
        (match mapGet res k with
         | some w =>
           if isPlainObject val && isPlainObject w then
             mapSet res k (mergeVal w val)
           else
             mapSet res k val
         | none => mapSet res k val)
        rest := by
  conv_lhs => rw [mergeEntries]

theorem mergeVal_obj (ra rb : List (String × PreferenceValue)) :
    mergeVal (.vObj ra) (.vObj rb) = .vObj (mergeEntries ra rb) := by
  rw [mergeVal]

theorem isPlainObject_iff_exists (a : PreferenceValue) :
    isPlainObject a = true ↔ ∃ ra, a = .vObj ra := by
  cases a <;> simp [isPlainObject]

theorem mergeVal_of_not_both_obj (a b : PreferenceValue)
    (h : ¬(isPlainObject a = true ∧ isPlainObject b = true)) : mergeVal a b = b := by
  rw [mergeVal.eq_def]
  split
  · rename_i ra rb
    exact absurd ⟨rfl, rfl⟩ h
  · rfl

/-- Folding entries whose keys are fresh for the accumulator appends them. -/
theorem mergeEntries_of_fresh (es acc : List (String × PreferenceValue))
    (h : ∀ k ∈ mapKeys es, k ∉ mapKeys acc) (hnd : (mapKeys es).Nodup) :
    mergeEntries acc es = acc ++ es := by
  induction es generalizing acc with
  | nil => rw [mergeEntries_nil, List.append_nil]
  | cons p rest ih =>
    obtain ⟨k, val⟩ := p
    simp only [mapKeys, List.map_cons, List.nodup_cons] at hnd
    have hknot : k ∉ mapKeys acc := h k (by simp [mapKeys])
    have hget : mapGet acc k = none := (mapGet_eq_none_iff_not_mem_keys acc k).mpr hknot
    rw [mergeEntries_cons, hget]
    rw [mapSet_eq_append_of_none acc k val hget]
    rw [ih (acc ++ [(k, val)]) ?_ hnd.2]
    · rw [List.append_assoc]
      rfl
    · intro k' hk'
      simp only [mapKeys, List.map_append, List.map_cons, List.map_nil, List.mem_append,
        List.mem_singleton]
      rintro (hmem | hmem)
      · exact h k' (List.mem_cons_of_mem _ hk') hmem
      · subst hmem
        exact hnd.1 hk'

/-- When some value is not a plain object, `deepMerge` returns the last
value. -/
theorem deepMerge_not_all_obj (vs : List PreferenceValue)
    (h : vs.all isPlainObject = false) : deepMerge vs = vs.getLastD .vNull := by
  unfold deepMerge
  rw [h]
  rfl

/-- When every value is a plain object, `deepMerge` builds the fold of the
entry-merging step over an initially empty result object. -/
theorem deepMerge_all_obj (vs : List PreferenceValue) (h : vs.all isPlainObject = true) :
    deepMerge vs = .vObj (vs.foldl
      (fun result value =>
        match value with
        | .vObj es => mergeEntries result es
        | _ => result)
      []) := by
  unfold deepMerge
  simp only [h, Bool.not_true, Bool.false_eq_true, if_false]

/-- `deepMerge` on a two-element list agrees with the binary `mergeVal`
(the embedding's stand-in for the source's recursive self-call), provided
the first object's keys are unique — always the case for values coming
from JavaScript objects. -/
theorem deepMerge_pair_eq_mergeVal (a b : PreferenceValue)
    (h : ∀ ra, a = .vObj ra → (mapKeys ra).Nodup) :
    deepMerge [a, b] = mergeVal a b := by
  by_cases hobj : isPlainObject a = true ∧ isPlainObject b = true
  · obtain ⟨ra, rfl⟩ := (isPlainObject_iff_exists a).mp hobj.1
    obtain ⟨rb, rfl⟩ := (isPlainObject_iff_exists b).mp hobj.2
    rw [mergeVal_obj]
    rw [deepMerge_all_obj _ (by simp [isPlainObject])]
    have hfresh := mergeEntries_of_fresh ra [] (by simp [mapKeys]) (h ra rfl)
    simp only [List.nil_append] at hfresh
    show PreferenceValue.vObj (mergeEntries (mergeEntries [] ra) rb)
      = PreferenceValue.vObj (mergeEntries ra rb)
    rw [hfresh]
  · have hall : ([a, b].all isPlainObject) = false := by
      cases ha : isPlainObject a <;> cases hb : isPlainObject b <;> simp_all
    rw [deepMerge_not_all_obj _ hall, mergeVal_of_not_both_obj a b hobj]
    rfl

/-- When every value is a plain object, `deepMerge` is the left fold of the
binary merge over the values in order (pairwise merging), provided the
first object's keys are unique. -/
theorem deepMerge_all_obj_foldl (v₀ : PreferenceValue) (vrest : List PreferenceValue)
    (hall : ((v₀ :: vrest).all isPlainObject) = true)
    (hnd : (mapKeys (entriesOf v₀)).Nodup) :
    deepMerge (v₀ :: vrest) = vrest.foldl mergeVal v₀ := by
  simp only [List.all_cons, Bool.and_eq_true] at hall
  obtain ⟨e₀, rfl⟩ := (isPlainObject_iff_exists v₀).mp hall.1
  have hgen : ∀ (rest : List PreferenceValue) (acc : List (String × PreferenceValue)),
      rest.all isPlainObject = true →
      PreferenceValue.vObj (rest.foldl
        (fun result value =>
          match value with
          | .vObj es => mergeEntries result es
          | _ => result) acc)
        = rest.foldl mergeVal (.vObj acc) := by
    intro rest
    induction rest with
    | nil => intro acc _; rfl
    | cons v vs ih =>
      intro acc hall'
      simp only [List.all_cons, Bool.and_eq_true] at hall'
      obtain ⟨es, rfl⟩ := (isPlainObject_iff_exists v).mp hall'.1
      simp only [List.foldl_cons, mergeVal_obj]
      exact ih (mergeEntries acc es) hall'.2
  have hallb : ((PreferenceValue.vObj e₀ :: vrest).all isPlainObject) = true := by
    simp only [List.all_cons, Bool.and_eq_true]
    exact ⟨rfl, hall.2⟩
  have hfresh := mergeEntries_of_fresh e₀ [] (by simp [mapKeys]) (by simpa [entriesOf] using hnd)
  simp only [List.nil_append] at hfresh
  rw [deepMerge_all_obj _ hallb]
  have h2 := hgen (PreferenceValue.vObj e₀ :: vrest) [] hallb
  refine h2.trans ?_
  simp only [List.foldl_cons, mergeVal_obj]
  rw [hfresh]

/-- The override law of the entry-merging fold, at any single nesting
level: a key present in the later (second) object wins; when both sides
hold plain objects at that key the results are recursively merged
(`mergeVal`, i.e. the next nesting level); keys absent from the later
object keep the earlier object's value. -/
theorem mergeEntries_lookup (rb ra : List (String × PreferenceValue)) (k : String)
    (hnd : (mapKeys rb).Nodup) :
    mapGet (mergeEntries ra rb) k =
      match mapGet rb k, mapGet ra k with
      | none, x => x
      | some vb, some va =>
        some (if isPlainObject vb && isPlainObject va then mergeVal va vb else vb)
      | some vb, none => some vb := by
  induction rb generalizing ra with
  | nil =>
    rw [mergeEntries_nil]
    rfl
  | cons p rbs ih =>
    obtain ⟨k₁, v₁⟩ := p
    simp only [mapKeys, List.map_cons, List.nodup_cons] at hnd
    rw [mergeEntries_cons, ih _ hnd.2]
    rcases eq_or_ne k k₁ with hk | hk
    · subst hk
      have h1 : mapGet rbs k = none :=
        (mapGet_eq_none_iff_not_mem_keys rbs k).mpr hnd.1
      have h2 : mapGet ((k, v₁) :: rbs) k = some v₁ := by
        simp [mapGet]
      rw [h1, h2]
      cases hra : mapGet ra k with
      | none =>
        rw [mapGet_mapSet_self]
      | some va =>
        show mapGet (if (isPlainObject v₁ && isPlainObject va) = true
            then mapSet ra k (mergeVal va v₁) else mapSet ra k v₁) k
          = some (if (isPlainObject v₁ && isPlainObject va) = true then mergeVal va v₁ else v₁)
        cases hcond : (isPlainObject v₁ && isPlainObject va) with
        | false => simp [mapGet_mapSet_self]
        | true => simp [mapGet_mapSet_self]
    · have h2 : mapGet ((k₁, v₁) :: rbs) k = mapGet rbs k := by
        simp only [mapGet]
        rw [if_neg (fun h => hk h.symm)]
      rw [h2]
      have hstep : mapGet
          (match mapGet ra k₁ with
           | some w =>
             if isPlainObject v₁ && isPlainObject w then
               mapSet ra k₁ (mergeVal w v₁)
             else
               mapSet ra k₁ v₁
           | none => mapSet ra k₁ v₁) k = mapGet ra k := by
        cases hra : mapGet ra k₁ with
        | none => rw [mapGet_mapSet_ne ra k₁ k _ hk]
        | some w =>
          show mapGet (if (isPlainObject v₁ && isPlainObject w) = true
              then mapSet ra k₁ (mergeVal w v₁) else mapSet ra k₁ v₁) k = mapGet ra k
          split
          · rw [mapGet_mapSet_ne ra k₁ k _ hk]
          · rw [mapGet_mapSet_ne ra k₁ k _ hk]
      rw [hstep]

theorem getLastD_map {α β : Type} (f : α → β) (l : List α) :
    ∀ (hne : l ≠ []) (d : β) (d' : α), (l.map f).getLastD d = f (l.getLastD d') := by
  intro hne d d'
  rw [List.getLastD_eq_getLast?, List.getLastD_eq_getLast?, List.getLast?_map]
  cases h : l.getLast? with
  | none => exact absurd (List.getLast?_eq_none_iff.mp h) hne
  | some x => rfl

/-- C2: with two or more records, the MERGE strategy sorts the records
ascending by (priority, then timestamp) — the result is a sorted
permutation of the input — and the resulting value is the deep merge of
the sorted values: when every value is a plain object this is the pairwise
left fold of the binary deep merge in sort order, in which (at every
nesting level, by `mergeEntries_lookup`) a later record's keys override an
earlier one's and both-object collisions merge recursively; when at least
one value is not a plain object, the merged value is exactly the last
(sorted) record's value, with no partial merge. -/
theorem claim_C2_merge_strategy (first : PreferenceMetadata) (rest : List PreferenceMetadata)
    (hne : rest ≠ []) :
    resolve (first :: rest) ConflictResolution.MERGE = .ok (resolveByMerge first rest) ∧
    ((first :: rest).mergeSort mergeLe).Perm (first :: rest) ∧
    ((first :: rest).mergeSort mergeLe).Pairwise
      (fun a b => a.priority < b.priority ∨ (a.priority = b.priority ∧ a.timestamp ≤ b.timestamp)) ∧
    (resolveByMerge first rest).value
      = deepMerge (((first :: rest).mergeSort mergeLe).map (·.value)) ∧
    (((((first :: rest).mergeSort mergeLe).map (·.value)).all isPlainObject) = false →
      (resolveByMerge first rest).value
        = (((first :: rest).mergeSort mergeLe).getLastD first).value) ∧
    (∀ v₀ vrest, (((first :: rest).mergeSort mergeLe).map (·.value)) = v₀ :: vrest →
      ((v₀ :: vrest).all isPlainObject) = true →
      (mapKeys (entriesOf v₀)).Nodup →
      (resolveByMerge first rest).value = vrest.foldl mergeVal v₀) ∧
    (∀ ra rb k, (mapKeys rb).Nodup →
      mapGet (mergeEntries ra rb) k =
        match mapGet rb k, mapGet ra k with
        | none, x => x
        | some vb, some va =>
          some (if isPlainObject vb && isPlainObject va then mergeVal va vb else vb)
        | some vb, none => some vb) := by
  refine ⟨?_, List.mergeSort_perm (first :: rest) mergeLe, ?_, rfl, ?_, ?_, ?_⟩
  · match rest, hne with
    | b :: rs, _ => rfl
  · exact (List.sorted_mergeSort mergeLe_trans mergeLe_total (first :: rest)).imp
      (fun h => (mergeLe_iff _ _).mp h)
  · intro hnotall
    have hne' : (first :: rest).mergeSort mergeLe ≠ [] := by
      intro h
      have := (List.mergeSort_perm (first :: rest) mergeLe).length_eq
      rw [h] at this
      simp at this
    show deepMerge (((first :: rest).mergeSort mergeLe).map (·.value))
      = (((first :: rest).mergeSort mergeLe).getLastD first).value
    rw [deepMerge_not_all_obj _ hnotall]
    exact getLastD_map _ _ hne' _ first
  · intro v₀ vrest hmap hall hnd
    show deepMerge (((first :: rest).mergeSort mergeLe).map (·.value)) = vrest.foldl mergeVal v₀
    rw [hmap]
    exact deepMerge_all_obj_foldl v₀ vrest hall hnd
  · exact fun ra rb k hnd => mergeEntries_lookup rb ra k hnd

/-- Records with object values used as merge witnesses. -/
def objRec1 : PreferenceMetadata :=
  ⟨"k", .vObj [("a", .vNum 1), ("c", .vNum 5)], 25, "s1", 0, none, none, none⟩

def objRec2 : PreferenceMetadata :=
  ⟨"k", .vObj [("a", .vNum 2), ("b", .vNum 3)], 75, "s2", 0, none, none, none⟩

/-- Witness for C2 at a concrete two-record input with object values. -/
theorem claim_C2_merge_strategy_witness :
    resolve [objRec1, objRec2] ConflictResolution.MERGE
      = .ok (resolveByMerge objRec1 [objRec2]) :=
  (claim_C2_merge_strategy objRec1 [objRec2] (by simp)).1

/-- The two-element sort used by the C3 analysis: `sample2` (priority 75)
before `sample1` (priority 25) in input order sorts to `[sample1,
sample2]`. -/
theorem sample_pair_sorted :
    [sample2, sample1].mergeSort mergeLe = [sample1, sample2] := by
  rw [mergeSort_pair mergeLe mergeLe_trans mergeLe_total]
  rw [if_neg (by decide)]

/-- C3 counterexample: for the input `[sample2, sample1]` — sources in
input order `s2, s1`, priorities 75 then 25 — the MERGE result's source is
`merged[s1,s2]`: the label joins the sources in *sorted* order, not in the
original (pre-sort) input order `merged[s2,s1]` the claim requires. -/
theorem claim_C3_counterexample :
    resolve [sample2, sample1] ConflictResolution.MERGE
      = .ok (resolveByMerge sample2 [sample1]) ∧
    (resolveByMerge sample2 [sample1]).source = "merged[s1,s2]" ∧
    "merged[s1,s2]" ≠ "merged[s2,s1]" := by
  refine ⟨rfl, ?_, by decide⟩
  show (resolveByMerge sample2 [sample1]).source = "merged[s1,s2]"
  unfold resolveByMerge
  simp only [sample_pair_sorted]
  decide

/-- C3 (amended): with two or more records under MERGE, the result is a
copy of the highest-ranked record — the last record of the list sorted
ascending by (priority, then timestamp) — with `value` replaced by the
deep merge of the sorted values and `source` set to `merged[...]` listing
all contributing sources in *sorted* (ascending priority, then timestamp)
order, comma-joined. -/
theorem claim_C3_amended_merged_source_label (first : PreferenceMetadata)
    (rest : List PreferenceMetadata) (hne : rest ≠ []) :
    resolve (first :: rest) ConflictResolution.MERGE = .ok (resolveByMerge first rest) ∧
    ((first :: rest).mergeSort mergeLe).Perm (first :: rest) ∧
    ((first :: rest).mergeSort mergeLe).Pairwise
      (fun a b => a.priority < b.priority ∨ (a.priority = b.priority ∧ a.timestamp ≤ b.timestamp)) ∧
    (resolveByMerge first rest).source
      = "merged[" ++ String.intercalate ","
          ((((first :: rest).mergeSort mergeLe)).map (·.source)) ++ "]" ∧
    (resolveByMerge first rest).value
      = deepMerge ((((first :: rest).mergeSort mergeLe)).map (·.value)) ∧
    (resolveByMerge first rest).key
      = (((first :: rest).mergeSort mergeLe).getLastD first).key ∧
    (resolveByMerge first rest).priority
      = (((first :: rest).mergeSort mergeLe).getLastD first).priority ∧
    (resolveByMerge first rest).timestamp
      = (((first :: rest).mergeSort mergeLe).getLastD first).timestamp ∧
    (resolveByMerge first rest).encrypted
      = (((first :: rest).mergeSort mergeLe).getLastD first).encrypted ∧
    (resolveByMerge first rest).validated
      = (((first :: rest).mergeSort mergeLe).getLastD first).validated ∧
    (resolveByMerge first rest).ttl
      = (((first :: rest).mergeSort mergeLe).getLastD first).ttl := by
  refine ⟨?_, List.mergeSort_perm (first :: rest) mergeLe, ?_,
    rfl, rfl, rfl, rfl, rfl, rfl, rfl, rfl⟩
  · match rest, hne with
    | b :: rs, _ => rfl
  · exact (List.sorted_mergeSort mergeLe_trans mergeLe_total (first :: rest)).imp
      (fun h => (mergeLe_iff _ _).mp h)

/-- Witness for the amended C3 at the concrete input `[sample2, sample1]`:
the label is `merged[s1,s2]` — sorted order. -/
theorem claim_C3_amended_merged_source_label_witness :
    (resolveByMerge sample2 [sample1]).source
      = "merged[" ++ String.intercalate ","
          (([sample2, sample1].mergeSort mergeLe).map (·.source)) ++ "]" ∧
    (resolveByMerge sample2 [sample1]).source = "merged[s1,s2]" := by
  constructor
  · exact (claim_C3_amended_merged_source_label sample2 [sample1] (by simp)).2.2.2.1
  · rw [(claim_C3_amended_merged_source_label sample2 [sample1] (by simp)).2.2.2.1,
      sample_pair_sorted]
    decide

end PrefInj
